import Mathlib

/-!
Verification of the `ingen` KPI comparison engine (`src/ingen/kpis.py`).

The engine is the class `KPIs`: constructed from a real data source, a
generated data source and a binning, it materializes both histograms, their
flattened value vectors `h1f`/`h2f`, the difference `diff = h2f - h1f`,
and exposes three read-only queries `error()`, `quality()` and `distance()`.

Modelling conventions:
* Histogram value grids and the binning's volume grid enter the model
  already flattened, as lists of rationals (the external collaborators
  `get_histogram`, `values.flatten()` and `volumes.flatten()` produce them;
  the engine only consumes the flattened vectors).
* Point sets (the normalized views `rd(normalized=True)`,
  `gd(normalized=True)`) are lists of points, each point a list of real
  coordinates.
* Python float arithmetic is modelled exactly (ℚ for the histogram metrics,
  ℝ for the distance metric).  A division whose denominator is zero yields a
  non-finite IEEE value (NaN/Inf) in the source; we model a possibly
  non-finite float as `Option` with `none` standing for the non-finite
  result, and division by zero returning `none`.  Arithmetic propagates
  `none`, as NaN propagates through `+` in Python.
-/

namespace Ingen

/-- Python float division `x / y`: `none` models the non-finite result
(NaN or Inf) produced when the denominator is zero. -/
def pdiv (x y : ℚ) : Option ℚ :=
  if y = 0 then none else some (x / y)

/-- The engine state built by `KPIs.__init__`: the two normalized point-set
views used by `distance()`, the flattened histogram vectors `h1f`, `h2f`,
the flattened bin-volume vector of the binning, and the cached difference
`diff`. -/
structure KPIs where
  rd : List (List ℝ)
  gd : List (List ℝ)
  h1f : List ℚ
  h2f : List ℚ
  vols : List ℚ
  diff : List ℚ

/-- Constructor `KPIs.__init__`: all derived state is computed here, once; in
particular `diff = h2f - h1f` (elementwise). -/
def mkKPIs (rd gd : List (List ℝ)) (h1f h2f vols : List ℚ) : KPIs :=
  ⟨rd, gd, h1f, h2f, vols, List.zipWith (fun a b => a - b) h2f h1f⟩

@[simp] lemma mkKPIs_rd (rd gd : List (List ℝ)) (h1f h2f vols : List ℚ) :
    (mkKPIs rd gd h1f h2f vols).rd = rd := rfl

@[simp] lemma mkKPIs_gd (rd gd : List (List ℝ)) (h1f h2f vols : List ℚ) :
    (mkKPIs rd gd h1f h2f vols).gd = gd := rfl

@[simp] lemma mkKPIs_h1f (rd gd : List (List ℝ)) (h1f h2f vols : List ℚ) :
    (mkKPIs rd gd h1f h2f vols).h1f = h1f := rfl

@[simp] lemma mkKPIs_h2f (rd gd : List (List ℝ)) (h1f h2f vols : List ℚ) :
    (mkKPIs rd gd h1f h2f vols).h2f = h2f := rfl

@[simp] lemma mkKPIs_vols (rd gd : List (List ℝ)) (h1f h2f vols : List ℚ) :
    (mkKPIs rd gd h1f h2f vols).vols = vols := rfl

@[simp] lemma mkKPIs_diff (rd gd : List (List ℝ)) (h1f h2f vols : List ℚ) :
    (mkKPIs rd gd h1f h2f vols).diff = List.zipWith (fun a b => a - b) h2f h1f := rfl

/-- Method `KPIs.error`: `sum(self.__diff[self.__diff > 0]) / sum(self.__h2f)`. -/
def error (k : KPIs) : Option ℚ :=
  pdiv ((k.diff.filter (fun x => decide (0 < x))).sum) k.h2f.sum

/-- The inner `get_quality(r, delta)` of `KPIs.quality`. -/
def get_quality (r delta : ℚ) : ℚ :=
  if r = 0 ∧ delta = 0 then 1
  else if r = 0 ∨ r < |delta| then 0
  else 1 - |delta| / r

/-- Numpy boolean-mask indexing `arr[index]`: keep the entries of `xs`
at the positions where the mask holds. -/
def maskSel {α : Type} : List Bool → List α → List α
  | true :: ms, x :: xs => x :: maskSel ms xs
  | false :: ms, _ :: xs => maskSel ms xs
  | _, _ => []

/-- The inner `quality(index)` of `KPIs.quality`: the sentinel `2.0` when
the mask selects nothing, otherwise the volume-weighted mean
`sum(get_quality(r, delta) * vol for selected bins) / bin_vols[index].sum()`. -/
def qualityPart (k : KPIs) (m : List Bool) : Option ℚ :=
  if m.any id then
    pdiv (((maskSel m k.h1f).zip ((maskSel m k.diff).zip (maskSel m k.vols))).map
        (fun p => get_quality p.1 p.2.1 * p.2.2)).sum
      (maskSel m k.vols).sum
  else some 2

/-- The mask `abi = [True] * h1f.size`: every bin. -/
def abi (k : KPIs) : List Bool := List.replicate k.h1f.length true

/-- The mask `nebi = h1f > 0`: bins with a positive real count. -/
def nebi (k : KPIs) : List Bool := k.h1f.map (fun x => decide (0 < x))

/-- The mask `ebi = h1f == 0`: bins with real count zero. -/
def ebi (k : KPIs) : List Bool := k.h1f.map (fun x => decide (x = 0))

/-- Method `KPIs.quality`: the triple over the masks `abi` (all bins),
`nebi` (`h1f > 0`) and `ebi` (`h1f == 0`). -/
def quality (k : KPIs) : Option ℚ × Option ℚ × Option ℚ :=
  (qualityPart k (abi k), qualityPart k (nebi k), qualityPart k (ebi k))

/-! ### The `distance()` metric

`KPIs.distance` works on the two normalized point-set views.  The inner
`_half(data_point, data_set)` is the arithmetic mean of the Euclidean norms
of `data_set - data_point` (row-wise); `apply_to_chunk` accumulates `_half`
over a chunk starting from `0`; `split_set_and_apply` splits a set into 16
contiguous chunks with `np.array_split`, maps `apply_to_chunk` over them
(dask bag) and sums the partial results; `set2set` combines both
directions and divides by the total point count.  The chunk count is a
parameter `n` here; the source fixes `n = 16`. -/

/-- Sizes of the parts produced by `np.array_split` on a length-`l`
sequence split into `n` parts: `l % n` parts of size `l / n + 1` followed
by `n - l % n` parts of size `l / n`. -/
def splitSizes (l n : ℕ) : List ℕ :=
  List.replicate (l % n) (l / n + 1) ++ List.replicate (n - l % n) (l / n)

/-- Cut a list into consecutive pieces of the given sizes. -/
def takeDrops {α : Type} : List ℕ → List α → List (List α)
  | [], _ => []
  | k :: ks, s => s.take k :: takeDrops ks (s.drop k)

/-- Numpy `np.array_split(s, n)`: `n` contiguous parts whose sizes differ by at
most one. -/
def array_split {α : Type} (s : List α) (n : ℕ) : List (List α) :=
  takeDrops (splitSizes s.length n) s

noncomputable section

/-- Numpy `np.linalg.norm` of one row: the Euclidean norm of a coordinate
vector. -/
def enorm (v : List ℝ) : ℝ :=
  Real.sqrt ((v.map (fun x => x ^ 2)).sum)

/-- Addition of possibly non-finite floats: NaN propagates. -/
def oadd : Option ℝ → Option ℝ → Option ℝ
  | some a, some b => some (a + b)
  | _, _ => none

/-- Python `sum` over a list of possibly non-finite floats, starting
from `0`. -/
def osum (l : List (Option ℝ)) : Option ℝ :=
  l.foldl oadd (some 0)

/-- Python float division over ℝ, `none` for the non-finite result on a
zero denominator. -/
def pdivR (x y : ℝ) : Option ℝ :=
  if y = 0 then none else some (x / y)

/-- Inner `_half(data_point, data_set)`:
`np.linalg.norm(data_set - data_point, axis=1).mean()` — the mean of the
per-row Euclidean norms; the mean of an empty array is NaN. -/
def half (p : List ℝ) (S : List (List ℝ)) : Option ℝ :=
  pdivR ((S.map (fun y => enorm (y.zipWith (fun a b => a - b) p))).sum) S.length

/-- The finite value of `_half` when the other set is non-empty. -/
def halfR (p : List ℝ) (S : List (List ℝ)) : ℝ :=
  ((S.map (fun y => enorm (y.zipWith (fun a b => a - b) p))).sum) / S.length

/-- Inner `apply_to_chunk(chunk, other_set)`: `res = 0`, then
`res += _half(data_point, other_set)` over the chunk. -/
def apply_to_chunk (chunk other : List (List ℝ)) : Option ℝ :=
  osum (chunk.map (fun p => half p other))

/-- Inner `split_set_and_apply(set1, set2)` with chunk count `n`: split `set1`
into `n` contiguous parts, apply `apply_to_chunk` to each against the whole
of `set2`, and sum the partial results.  The source fixes `n = 16`. -/
def split_set_and_apply_chunks (n : ℕ) (set1 set2 : List (List ℝ)) : Option ℝ :=
  osum ((array_split set1 n).map (fun c => apply_to_chunk c set2))

/-- Function `split_set_and_apply` as in the source: 16 chunks. -/
def split_set_and_apply (set1 set2 : List (List ℝ)) : Option ℝ :=
  split_set_and_apply_chunks 16 set1 set2

/-- Inner `set2set(set1, set2)` with chunk count `n`:
`(s1 + s2) / (set1.shape[0] + set2.shape[0])`. -/
def set2set_chunks (n : ℕ) (set1 set2 : List (List ℝ)) : Option ℝ :=
  match oadd (split_set_and_apply_chunks n set1 set2)
      (split_set_and_apply_chunks n set2 set1) with
  | none => none
  | some v => pdivR v ((set1.length : ℝ) + (set2.length : ℝ))

/-- Function `set2set` as in the source: 16 chunks. -/
def set2set (set1 set2 : List (List ℝ)) : Option ℝ :=
  set2set_chunks 16 set1 set2

/-- Method `KPIs.distance`: `set2set` on the two normalized point-set views. -/
def distance (k : KPIs) : Option ℝ :=
  set2set k.rd k.gd

/-- The specification's cross term, written from the spec:
`cross(X, Y) = Σ_{x in X} mean_{y in Y} ‖x − y‖₂`. -/
def cross (X Y : List (List ℝ)) : ℝ :=
  (X.map (fun x =>
    ((Y.map (fun y => enorm (x.zipWith (fun a b => a - b) y))).sum) / Y.length)).sum

end

/-! ### Basic lemmas about the rational-valued building blocks -/

lemma pdiv_eq_none_iff (x y : ℚ) : pdiv x y = none ↔ y = 0 := by
  unfold pdiv
  split_ifs with h <;> simp [h]

lemma pdiv_eq_some (x y : ℚ) (h : y ≠ 0) : pdiv x y = some (x / y) := by
  simp [pdiv, h]

/-- The positive entries of `h2f - h1f` sum to a value between `0` and
`sum h2f`, for non-negative histograms. -/
lemma diff_filter_bounds :
    ∀ (h1f h2f : List ℚ), (∀ x ∈ h1f, 0 ≤ x) → (∀ x ∈ h2f, 0 ≤ x) →
      0 ≤ ((List.zipWith (fun a b => a - b) h2f h1f).filter
            (fun x => decide (0 < x))).sum ∧
      ((List.zipWith (fun a b => a - b) h2f h1f).filter
            (fun x => decide (0 < x))).sum ≤ h2f.sum := by
  intro h1f h2f
  induction h2f generalizing h1f with
  | nil => intro _ _; simp
  | cons b bs ih =>
    intro hn1 hn2
    cases h1f with
    | nil =>
      constructor
      · simp
      · simp
        exact List.sum_nonneg hn2
    | cons a as =>
      have ha : 0 ≤ a := hn1 a (by simp)
      have hb : 0 ≤ b := hn2 b (by simp)
      have ih' := ih as (fun x hx => hn1 x (by simp [hx]))
        (fun x hx => hn2 x (by simp [hx]))
      simp only [List.zipWith_cons_cons, List.filter_cons, List.sum_cons]
      by_cases hpos : 0 < b - a
      · rw [if_pos (by simpa using hpos)]
        rw [List.sum_cons]
        constructor
        · exact add_nonneg (le_of_lt hpos) ih'.1
        · have hba : b - a ≤ b := by linarith
          linarith [ih'.2]
      · rw [if_neg (by simpa using hpos)]
        constructor
        · exact ih'.1
        · linarith [ih'.2]

/-- Per-bin quality scores always lie in `[0, 1]`. -/
lemma get_quality_nonneg (r d : ℚ) : 0 ≤ get_quality r d := by
  unfold get_quality
  split_ifs with h1 h2
  · norm_num
  · exact le_refl 0
  · push_neg at h2
    have hr : 0 < r := lt_of_le_of_ne (le_trans (abs_nonneg d) h2.2) (Ne.symm h2.1)
    have : |d| / r ≤ 1 := (div_le_one hr).mpr h2.2
    linarith

lemma get_quality_le_one (r d : ℚ) : get_quality r d ≤ 1 := by
  unfold get_quality
  split_ifs with h1 h2
  · norm_num
  · norm_num
  · push_neg at h2
    have hr : 0 < r := lt_of_le_of_ne (le_trans (abs_nonneg d) h2.2) (Ne.symm h2.1)
    have : 0 ≤ |d| / r := div_nonneg (abs_nonneg d) (le_of_lt hr)
    linarith

/-! ### Mask-selection lemmas -/

lemma maskSel_nil_right {α : Type} (m : List Bool) : maskSel m ([] : List α) = [] := by
  cases m with
  | nil => rfl
  | cons b ms => cases b <;> rfl

lemma maskSel_subset {α : Type} :
    ∀ (m : List Bool) (xs : List α), ∀ x ∈ maskSel m xs, x ∈ xs := by
  intro m
  induction m with
  | nil => intro xs x hx; simp [maskSel] at hx
  | cons b ms ih =>
    intro xs x hx
    cases xs with
    | nil => rw [maskSel_nil_right] at hx; simp at hx
    | cons y ys =>
      cases b with
      | true =>
        simp only [maskSel, List.mem_cons] at hx ⊢
        rcases hx with h | h
        · exact Or.inl h
        · exact Or.inr (ih ys x h)
      | false =>
        simp only [maskSel] at hx
        exact List.mem_cons_of_mem y (ih ys x hx)

lemma maskSel_length_congr {α β : Type} :
    ∀ (m : List Bool) (xs : List α) (ys : List β), xs.length = ys.length →
      (maskSel m xs).length = (maskSel m ys).length := by
  intro m
  induction m with
  | nil => intro xs ys _; simp [maskSel]
  | cons b ms ih =>
    intro xs ys hlen
    cases xs with
    | nil =>
      cases ys with
      | nil => rw [maskSel_nil_right, maskSel_nil_right]; rfl
      | cons y ys' => simp at hlen
    | cons x xs' =>
      cases ys with
      | nil => simp at hlen
      | cons y ys' =>
        simp only [List.length_cons, Nat.succ_inj] at hlen
        cases b with
        | true => simp only [maskSel, List.length_cons]; exact congrArg Nat.succ (ih xs' ys' hlen)
        | false => simpa only [maskSel] using ih xs' ys' hlen

lemma maskSel_ne_nil {α : Type} :
    ∀ (m : List Bool) (xs : List α), m.any id = true → m.length = xs.length →
      maskSel m xs ≠ [] := by
  intro m
  induction m with
  | nil => intro xs h _; simp at h
  | cons b ms ih =>
    intro xs hany hlen
    cases xs with
    | nil => simp at hlen
    | cons x xs' =>
      simp only [List.length_cons, Nat.succ_inj] at hlen
      cases b with
      | true => simp [maskSel]
      | false =>
        simp only [List.any_cons, id, Bool.false_or] at hany
        simpa only [maskSel] using ih xs' hany hlen

lemma maskSel_eq_nil_of_not_any {α : Type} :
    ∀ (m : List Bool) (xs : List α), m.any id = false → maskSel m xs = [] := by
  intro m
  induction m with
  | nil => intro xs _; simp [maskSel]
  | cons b ms ih =>
    intro xs hany
    simp only [List.any_cons, id, Bool.or_eq_false_iff] at hany
    cases xs with
    | nil => exact maskSel_nil_right _
    | cons x xs' =>
      cases b with
      | true => simp at hany
      | false => simpa only [maskSel] using ih xs' hany.2

/-- The specification's aggregation formula for a partition:
`Q = Σ(score_i · vol_i) / Σ(vol_i)` over the bins the mask selects. -/
def wmean (k : KPIs) (m : List Bool) : ℚ :=
  (((maskSel m k.h1f).zip ((maskSel m k.diff).zip (maskSel m k.vols))).map
      (fun p => get_quality p.1 p.2.1 * p.2.2)).sum / (maskSel m k.vols).sum

/-- The volume-weighted score sum lies between `0` and the volume sum. -/
lemma weighted_sum_bounds :
    ∀ (rs ds vs : List ℚ), rs.length = vs.length → ds.length = vs.length →
      (∀ v ∈ vs, 0 ≤ v) →
      0 ≤ ((rs.zip (ds.zip vs)).map (fun p => get_quality p.1 p.2.1 * p.2.2)).sum ∧
      ((rs.zip (ds.zip vs)).map (fun p => get_quality p.1 p.2.1 * p.2.2)).sum ≤ vs.sum := by
  intro rs ds vs
  induction vs generalizing rs ds with
  | nil =>
    intro _ _ _
    simp [List.zip_nil_right]
  | cons v vs' ih =>
    intro hr hd hv
    cases rs with
    | nil => simp at hr
    | cons r rs' =>
      cases ds with
      | nil => simp at hd
      | cons d ds' =>
        simp only [List.length_cons, Nat.succ_inj] at hr hd
        have hv0 : 0 ≤ v := hv v (by simp)
        have ih' := ih rs' ds' hr hd (fun x hx => hv x (by simp [hx]))
        simp only [List.zip_cons_cons, List.map_cons, List.sum_cons]
        constructor
        · exact add_nonneg (mul_nonneg (get_quality_nonneg r d) hv0) ih'.1
        · have h1 : get_quality r d * v ≤ 1 * v :=
            mul_le_mul_of_nonneg_right (get_quality_le_one r d) hv0
          rw [one_mul] at h1
          linarith [ih'.2]

/-- Full characterization of the inner `quality(index)`: the sentinel when
the mask selects nothing, otherwise the volume-weighted mean, which lies in
`[0, 1]` when the volumes are positive and the grids are aligned. -/
lemma qualityPart_spec (k : KPIs) (m : List Bool)
    (hm : m.length = k.h1f.length)
    (hd : k.diff.length = k.h1f.length)
    (hv : k.vols.length = k.h1f.length)
    (hvp : ∀ v ∈ k.vols, 0 < v) :
    (m.any id = false → qualityPart k m = some 2) ∧
    (m.any id = true →
      qualityPart k m = some (wmean k m) ∧ 0 ≤ wmean k m ∧ wmean k m ≤ 1) := by
  constructor
  · intro hany
    simp [qualityPart, hany]
  · intro hany
    have hlenv : m.length = k.vols.length := by rw [hm, hv]
    have hselne : maskSel m k.vols ≠ [] := maskSel_ne_nil m k.vols hany hlenv
    have hselpos : ∀ v ∈ maskSel m k.vols, 0 < v :=
      fun v hvmem => hvp v (maskSel_subset m k.vols v hvmem)
    have hden : 0 < (maskSel m k.vols).sum :=
      List.sum_pos _ hselpos hselne
    have hlen1 : (maskSel m k.h1f).length = (maskSel m k.vols).length :=
      maskSel_length_congr m k.h1f k.vols (by rw [hv])
    have hlen2 : (maskSel m k.diff).length = (maskSel m k.vols).length :=
      maskSel_length_congr m k.diff k.vols (by rw [hd, hv])
    have hbounds := weighted_sum_bounds (maskSel m k.h1f) (maskSel m k.diff)
      (maskSel m k.vols) hlen1 hlen2 (fun v hvmem => le_of_lt (hselpos v hvmem))
    refine ⟨?_, ?_, ?_⟩
    · simp only [qualityPart, hany, if_true]
      rw [pdiv_eq_some _ _ (ne_of_gt hden)]
      rfl
    · exact div_nonneg hbounds.1 (le_of_lt hden)
    · exact (div_le_one hden).mpr hbounds.2

lemma zipWith_sub_self (l : List ℚ) :
    List.zipWith (fun a b => a - b) l l = List.replicate l.length 0 := by
  induction l with
  | nil => rfl
  | cons x xs ih => simp [List.zipWith_cons_cons, sub_self, ih, List.replicate_succ]

lemma filter_pos_replicate_zero (n : ℕ) :
    (List.replicate n (0 : ℚ)).filter (fun x => decide (0 < x)) = [] := by
  induction n with
  | zero => rfl
  | succ k ih => simp [List.replicate_succ, List.filter_cons, ih]

/-! ### Claim theorems about `error()` and `quality()` -/

/-- C4: for `r ≥ 0`, `get_quality(r, delta)` is `1` when `r = 0` and
`delta = 0`; is `0` when `r = 0` and `delta ≠ 0` or when `|delta| > r`;
and is `1 − |delta| / r` otherwise. -/
theorem get_quality_cases (r delta : ℚ) (h : 0 ≤ r) :
    (r = 0 ∧ delta = 0 → get_quality r delta = 1) ∧
    ((r = 0 ∧ delta ≠ 0) ∨ r < |delta| → get_quality r delta = 0) ∧
    (r ≠ 0 ∧ |delta| ≤ r → get_quality r delta = 1 - |delta| / r) := by
  refine ⟨?_, ?_, ?_⟩
  · rintro ⟨h0, hd⟩
    simp [get_quality, h0, hd]
  · rintro (⟨h0, hd⟩ | hlt)
    · rw [get_quality, if_neg (by tauto), if_pos (Or.inl h0)]
    · have hne : ¬(r = 0 ∧ delta = 0) := by
        rintro ⟨rfl, rfl⟩
        simp at hlt
      rw [get_quality, if_neg hne, if_pos (Or.inr hlt)]
  · rintro ⟨h0, hle⟩
    rw [get_quality, if_neg (by tauto), if_neg (by push_neg; exact ⟨h0, hle⟩)]

theorem get_quality_cases_witness :
    0 ≤ (3 : ℚ) ∧
    (((3 : ℚ) = 0 ∧ (1 : ℚ) = 0 → get_quality 3 1 = 1) ∧
     (((3 : ℚ) = 0 ∧ (1 : ℚ) ≠ 0) ∨ (3 : ℚ) < |(1 : ℚ)| → get_quality 3 1 = 0) ∧
     ((3 : ℚ) ≠ 0 ∧ |(1 : ℚ)| ≤ 3 → get_quality 3 1 = 1 - |(1 : ℚ)| / 3)) :=
  ⟨by norm_num, get_quality_cases 3 1 (by norm_num)⟩

/-- C3: `error()` is the sum of the positive entries of `diff = h2f − h1f`
divided by `sum h2f`, and for non-negative histograms with `sum h2f > 0`
the result lies in `[0, 1]`. -/
theorem error_formula_and_range (rd gd : List (List ℝ)) (h1f h2f vols : List ℚ)
    (hlen : h1f.length = h2f.length)
    (hn1 : ∀ x ∈ h1f, 0 ≤ x) (hn2 : ∀ x ∈ h2f, 0 ≤ x) (hs : 0 < h2f.sum) :
    error (mkKPIs rd gd h1f h2f vols) =
      some (((List.zipWith (fun a b => a - b) h2f h1f).filter
        (fun x => decide (0 < x))).sum / h2f.sum) ∧
    ∃ v, error (mkKPIs rd gd h1f h2f vols) = some v ∧ 0 ≤ v ∧ v ≤ 1 := by
  have hne : h2f.sum ≠ 0 := ne_of_gt hs
  have hform : error (mkKPIs rd gd h1f h2f vols) =
      some (((List.zipWith (fun a b => a - b) h2f h1f).filter
        (fun x => decide (0 < x))).sum / h2f.sum) := by
    rw [error, mkKPIs_diff, mkKPIs_h2f, pdiv_eq_some _ _ hne]
  have hb := diff_filter_bounds h1f h2f hn1 hn2
  refine ⟨hform, _, hform, ?_, ?_⟩
  · exact div_nonneg hb.1 (le_of_lt hs)
  · exact (div_le_one hs).mpr hb.2

theorem error_formula_and_range_witness :
    ([1, 0] : List ℚ).length = ([0, 2] : List ℚ).length ∧
    (∀ x ∈ ([1, 0] : List ℚ), 0 ≤ x) ∧
    (∀ x ∈ ([0, 2] : List ℚ), 0 ≤ x) ∧
    0 < ([0, 2] : List ℚ).sum ∧
    (error (mkKPIs [] [] [1, 0] [0, 2] []) =
      some (((List.zipWith (fun a b => a - b) ([0, 2] : List ℚ) [1, 0]).filter
        (fun x => decide (0 < x))).sum / ([0, 2] : List ℚ).sum) ∧
     ∃ v, error (mkKPIs [] [] [1, 0] [0, 2] []) = some v ∧ 0 ≤ v ∧ v ≤ 1) :=
  ⟨by norm_num, by norm_num, by norm_num, by norm_num,
   error_formula_and_range [] [] [1, 0] [0, 2] [] (by norm_num) (by norm_num)
     (by norm_num) (by norm_num)⟩

/-- C8 counterexample: with both flattened histograms identically zero
(`h2f = h1f = [0]`), `error()` does not return `0`; the division `0 / 0`
yields the non-finite result. -/
theorem error_identical_histograms_cx :
    error (mkKPIs [] [] [0] [0] []) = none ∧
    error (mkKPIs [] [] [0] [0] []) ≠ some 0 := by
  have h : error (mkKPIs [] [] [0] [0] []) = none := by
    norm_num [error, pdiv]
  exact ⟨h, by rw [h]; exact fun hc => Option.noConfusion hc⟩

/-- C8 amended: if the two flattened histograms are identical and carry
non-zero total mass, `error()` returns `0`. -/
theorem error_identical_histograms_amended (rd gd : List (List ℝ))
    (h1f vols : List ℚ) (hs : h1f.sum ≠ 0) :
    error (mkKPIs rd gd h1f h1f vols) = some 0 := by
  rw [error, mkKPIs_diff, mkKPIs_h2f, zipWith_sub_self, filter_pos_replicate_zero,
    pdiv_eq_some _ _ hs]
  simp

theorem error_identical_histograms_amended_witness :
    ([1] : List ℚ).sum ≠ 0 ∧ error (mkKPIs [] [] [1] [1] []) = some 0 :=
  ⟨by norm_num, error_identical_histograms_amended [] [] [1] [] (by norm_num)⟩

lemma maskSel_eq_nil_iff {α : Type} (m : List Bool) (xs : List α)
    (hlen : m.length = xs.length) : maskSel m xs = [] ↔ m.any id = false := by
  constructor
  · intro hnil
    cases hany : m.any id with
    | false => rfl
    | true => exact absurd hnil (maskSel_ne_nil m xs hany hlen)
  · exact maskSel_eq_nil_of_not_any m xs

/-- The sentinel/weighted-mean dichotomy for one partition, phrased in
terms of the selected bins. -/
lemma qualityPart_dichotomy (k : KPIs) (m : List Bool)
    (hm : m.length = k.h1f.length)
    (hd : k.diff.length = k.h1f.length)
    (hv : k.vols.length = k.h1f.length)
    (hvp : ∀ v ∈ k.vols, 0 < v) :
    (qualityPart k m = some 2 ↔ maskSel m k.h1f = []) ∧
    (maskSel m k.h1f ≠ [] →
      qualityPart k m = some (wmean k m) ∧ 0 ≤ wmean k m ∧ wmean k m ≤ 1) := by
  have spec := qualityPart_spec k m hm hd hv hvp
  have hiff := maskSel_eq_nil_iff m k.h1f hm
  constructor
  · constructor
    · intro h2
      cases hany : m.any id with
      | false => exact hiff.mpr hany
      | true =>
        rcases spec.2 hany with ⟨heq, _, hle⟩
        rw [heq] at h2
        have : wmean k m = 2 := Option.some_injective ℚ h2
        rw [this] at hle
        norm_num at hle
    · intro hnil
      exact spec.1 (hiff.mp hnil)
  · intro hne
    cases hany : m.any id with
    | false => exact absurd (hiff.mpr hany) hne
    | true => exact spec.2 hany

/-- C5: `quality()` returns one score per partition (`abi` all bins, `nebi`
bins with `r > 0`, `ebi` bins with `r = 0`); each component is the sentinel
`some 2` exactly when its partition selects no bins, and otherwise is the
volume-weighted mean of the per-bin scores, a value in `[0, 1]`, for a
constructed engine (`diff = h2f − h1f`) with aligned grids and positive
bin volumes. -/
theorem quality_partition_scores (k : KPIs)
    (hdiff : k.diff = List.zipWith (fun a b => a - b) k.h2f k.h1f)
    (hlen : k.h2f.length = k.h1f.length)
    (hvlen : k.vols.length = k.h1f.length)
    (hvp : ∀ v ∈ k.vols, 0 < v) :
    (((quality k).1 = some 2 ↔ maskSel (abi k) k.h1f = []) ∧
      (maskSel (abi k) k.h1f ≠ [] →
        (quality k).1 = some (wmean k (abi k)) ∧
        0 ≤ wmean k (abi k) ∧ wmean k (abi k) ≤ 1)) ∧
    (((quality k).2.1 = some 2 ↔ maskSel (nebi k) k.h1f = []) ∧
      (maskSel (nebi k) k.h1f ≠ [] →
        (quality k).2.1 = some (wmean k (nebi k)) ∧
        0 ≤ wmean k (nebi k) ∧ wmean k (nebi k) ≤ 1)) ∧
    (((quality k).2.2 = some 2 ↔ maskSel (ebi k) k.h1f = []) ∧
      (maskSel (ebi k) k.h1f ≠ [] →
        (quality k).2.2 = some (wmean k (ebi k)) ∧
        0 ≤ wmean k (ebi k) ∧ wmean k (ebi k) ≤ 1)) := by
  have hd : k.diff.length = k.h1f.length := by
    rw [hdiff, List.length_zipWith, hlen, min_self]
  exact ⟨qualityPart_dichotomy k (abi k) (by simp [abi]) hd hvlen hvp,
    qualityPart_dichotomy k (nebi k) (by simp [nebi]) hd hvlen hvp,
    qualityPart_dichotomy k (ebi k) (by simp [ebi]) hd hvlen hvp⟩

theorem quality_partition_scores_witness :
    ((mkKPIs [] [] [3, 1] [2, 2] [5, 5]).diff =
      List.zipWith (fun a b => a - b) (mkKPIs [] [] [3, 1] [2, 2] [5, 5]).h2f
        (mkKPIs [] [] [3, 1] [2, 2] [5, 5]).h1f) ∧
    ((mkKPIs [] [] [3, 1] [2, 2] [5, 5]).h2f.length =
      (mkKPIs [] [] [3, 1] [2, 2] [5, 5]).h1f.length) ∧
    ((mkKPIs [] [] [3, 1] [2, 2] [5, 5]).vols.length =
      (mkKPIs [] [] [3, 1] [2, 2] [5, 5]).h1f.length) ∧
    (∀ v ∈ (mkKPIs [] [] [3, 1] [2, 2] [5, 5]).vols, 0 < v) ∧
    ((((quality (mkKPIs [] [] [3, 1] [2, 2] [5, 5])).1 = some 2 ↔
        maskSel (abi (mkKPIs [] [] [3, 1] [2, 2] [5, 5]))
          (mkKPIs [] [] [3, 1] [2, 2] [5, 5]).h1f = []) ∧
      (maskSel (abi (mkKPIs [] [] [3, 1] [2, 2] [5, 5]))
          (mkKPIs [] [] [3, 1] [2, 2] [5, 5]).h1f ≠ [] →
        (quality (mkKPIs [] [] [3, 1] [2, 2] [5, 5])).1 =
          some (wmean (mkKPIs [] [] [3, 1] [2, 2] [5, 5])
            (abi (mkKPIs [] [] [3, 1] [2, 2] [5, 5]))) ∧
        0 ≤ wmean (mkKPIs [] [] [3, 1] [2, 2] [5, 5])
            (abi (mkKPIs [] [] [3, 1] [2, 2] [5, 5])) ∧
        wmean (mkKPIs [] [] [3, 1] [2, 2] [5, 5])
            (abi (mkKPIs [] [] [3, 1] [2, 2] [5, 5])) ≤ 1)) ∧
    (((quality (mkKPIs [] [] [3, 1] [2, 2] [5, 5])).2.1 = some 2 ↔
        maskSel (nebi (mkKPIs [] [] [3, 1] [2, 2] [5, 5]))
          (mkKPIs [] [] [3, 1] [2, 2] [5, 5]).h1f = []) ∧
      (maskSel (nebi (mkKPIs [] [] [3, 1] [2, 2] [5, 5]))
          (mkKPIs [] [] [3, 1] [2, 2] [5, 5]).h1f ≠ [] →
        (quality (mkKPIs [] [] [3, 1] [2, 2] [5, 5])).2.1 =
          some (wmean (mkKPIs [] [] [3, 1] [2, 2] [5, 5])
            (nebi (mkKPIs [] [] [3, 1] [2, 2] [5, 5]))) ∧
        0 ≤ wmean (mkKPIs [] [] [3, 1] [2, 2] [5, 5])
            (nebi (mkKPIs [] [] [3, 1] [2, 2] [5, 5])) ∧
        wmean (mkKPIs [] [] [3, 1] [2, 2] [5, 5])
            (nebi (mkKPIs [] [] [3, 1] [2, 2] [5, 5])) ≤ 1)) ∧
    (((quality (mkKPIs [] [] [3, 1] [2, 2] [5, 5])).2.2 = some 2 ↔
        maskSel (ebi (mkKPIs [] [] [3, 1] [2, 2] [5, 5]))
          (mkKPIs [] [] [3, 1] [2, 2] [5, 5]).h1f = []) ∧
      (maskSel (ebi (mkKPIs [] [] [3, 1] [2, 2] [5, 5]))
          (mkKPIs [] [] [3, 1] [2, 2] [5, 5]).h1f ≠ [] →
        (quality (mkKPIs [] [] [3, 1] [2, 2] [5, 5])).2.2 =
          some (wmean (mkKPIs [] [] [3, 1] [2, 2] [5, 5])
            (ebi (mkKPIs [] [] [3, 1] [2, 2] [5, 5]))) ∧
        0 ≤ wmean (mkKPIs [] [] [3, 1] [2, 2] [5, 5])
            (ebi (mkKPIs [] [] [3, 1] [2, 2] [5, 5])) ∧
        wmean (mkKPIs [] [] [3, 1] [2, 2] [5, 5])
            (ebi (mkKPIs [] [] [3, 1] [2, 2] [5, 5])) ≤ 1))) :=
  ⟨rfl, rfl, rfl, by norm_num,
    quality_partition_scores (mkKPIs [] [] [3, 1] [2, 2] [5, 5]) rfl rfl rfl
      (by norm_num)⟩

/-! ### Lemmas about the chunked distance reduction -/

/-- The code's cross term: the sum of `_half` over the whole of `S1`
against `S2` (what the chunked reduction computes in one direction). -/
noncomputable def crossCode (S1 S2 : List (List ℝ)) : ℝ :=
  (S1.map (fun p => halfR p S2)).sum

lemma splitSizes_sum (l n : ℕ) (hn : 0 < n) : (splitSizes l n).sum = l := by
  have hmod : l % n < n := Nat.mod_lt _ hn
  have hdiv : l % n + n * (l / n) = l := Nat.mod_add_div l n
  have h1 : (l % n) * (l / n + 1) = (l % n) * (l / n) + l % n := by ring
  have h2 : (n - l % n) * (l / n) = n * (l / n) - (l % n) * (l / n) :=
    Nat.sub_mul n (l % n) (l / n)
  have h3 : (l % n) * (l / n) ≤ n * (l / n) :=
    Nat.mul_le_mul_right _ (le_of_lt hmod)
  simp only [splitSizes, List.sum_append, List.sum_replicate, smul_eq_mul]
  omega

lemma takeDrops_sum_map {α : Type} (g : α → ℝ) :
    ∀ (ks : List ℕ) (s : List α), ks.sum = s.length →
      ((takeDrops ks s).map (fun c => (c.map g).sum)).sum = (s.map g).sum := by
  intro ks
  induction ks with
  | nil =>
    intro s hs
    simp only [List.sum_nil] at hs
    have : s = [] := List.length_eq_zero.mp hs.symm
    subst this
    rfl
  | cons k ks ih =>
    intro s hs
    simp only [List.sum_cons] at hs
    have hk : k ≤ s.length := by omega
    have hrest : ks.sum = (s.drop k).length := by
      rw [List.length_drop]
      omega
    simp only [takeDrops, List.map_cons, List.sum_cons]
    rw [ih (s.drop k) hrest]
    conv_rhs => rw [← List.take_append_drop k s]
    rw [List.map_append, List.sum_append]

lemma takeDrops_all_nil {α : Type} :
    ∀ (ks : List ℕ) (s : List α), ks.sum = s.length →
      (∀ c ∈ takeDrops ks s, c = []) → s = [] := by
  intro ks
  induction ks with
  | nil =>
    intro s hs _
    simp only [List.sum_nil] at hs
    exact List.length_eq_zero.mp hs.symm
  | cons k ks ih =>
    intro s hs hall
    simp only [List.sum_cons] at hs
    have htake : s.take k = [] := hall (s.take k) (by simp [takeDrops])
    have hk0 : k = 0 ∨ s = [] := List.take_eq_nil_iff.mp htake
    rcases hk0 with hk0 | hs0
    · subst hk0
      have hrest : ks.sum = s.length := by omega
      refine ih s hrest (fun c hc => hall c ?_)
      exact List.mem_cons_of_mem _ (by rw [List.drop_zero]; exact hc)
    · exact hs0

lemma nil_mem_takeDrops {α : Type} :
    ∀ (ks : List ℕ) (s : List α), 0 ∈ ks → [] ∈ takeDrops ks s := by
  intro ks
  induction ks with
  | nil => intro s h; simp at h
  | cons k ks ih =>
    intro s hmem
    rcases List.mem_cons.mp hmem with h0 | h0
    · subst h0
      simp [takeDrops]
    · exact List.mem_cons_of_mem _ (ih (s.drop k) h0)

lemma mem_takeDrops_nil {α : Type} :
    ∀ (ks : List ℕ) (c : List α), c ∈ takeDrops ks [] → c = [] := by
  intro ks
  induction ks with
  | nil => intro c hc; simp [takeDrops] at hc
  | cons k ks ih =>
    intro c hc
    simp only [takeDrops, List.take_nil, List.drop_nil] at hc
    rcases List.mem_cons.mp hc with h | h
    · exact h
    · exact ih c h

noncomputable section

lemma oadd_comm (x y : Option ℝ) : oadd x y = oadd y x := by
  cases x <;> cases y <;> simp [oadd, add_comm]

lemma foldl_oadd_none (l : List (Option ℝ)) : l.foldl oadd none = none := by
  induction l with
  | nil => rfl
  | cons x xs ih =>
    have : oadd none x = none := by cases x <;> rfl
    simp [List.foldl_cons, this, ih]

lemma foldl_oadd_some {α : Type} (f : α → ℝ) :
    ∀ (l : List α) (a : ℝ),
      (l.map (fun x => some (f x))).foldl oadd (some a) = some (a + (l.map f).sum) := by
  intro l
  induction l with
  | nil => intro a; simp [oadd]
  | cons x xs ih =>
    intro a
    simp only [List.map_cons, List.foldl_cons, oadd]
    rw [ih (a + f x), List.sum_cons]
    rw [add_assoc]

lemma osum_map_some {α : Type} (f : α → ℝ) (l : List α) :
    osum (l.map (fun x => some (f x))) = some ((l.map f).sum) := by
  rw [osum, foldl_oadd_some f l 0, zero_add]

lemma foldl_oadd_mem_none :
    ∀ (l : List (Option ℝ)) (a : Option ℝ), none ∈ l → l.foldl oadd a = none := by
  intro l
  induction l with
  | nil => intro a h; simp at h
  | cons x xs ih =>
    intro a h
    rcases List.mem_cons.mp h with h0 | h0
    · subst h0
      have hstep : oadd a none = none := by cases a <;> rfl
      rw [List.foldl_cons, hstep, foldl_oadd_none]
    · rw [List.foldl_cons]
      exact ih (oadd a x) h0

lemma osum_eq_none_of_mem (l : List (Option ℝ)) (h : none ∈ l) : osum l = none :=
  foldl_oadd_mem_none l (some 0) h

lemma pdivR_eq_some (x y : ℝ) (h : y ≠ 0) : pdivR x y = some (x / y) := by
  simp [pdivR, h]

lemma pdivR_eq_none_iff (x y : ℝ) : pdivR x y = none ↔ y = 0 := by
  unfold pdivR
  split_ifs with h <;> simp [h]

lemma half_eq_some (p : List ℝ) (S : List (List ℝ)) (h : S ≠ []) :
    half p S = some (halfR p S) := by
  have hl : S.length ≠ 0 := fun h0 => h (List.length_eq_zero.mp h0)
  have hlen : (S.length : ℝ) ≠ 0 := Nat.cast_ne_zero.mpr hl
  rw [half, pdivR_eq_some _ _ hlen, halfR]

lemma half_nil (p : List ℝ) : half p [] = none := by
  simp [half, pdivR]

lemma apply_to_chunk_eq_some (chunk S : List (List ℝ)) (h : S ≠ []) :
    apply_to_chunk chunk S = some ((chunk.map (fun p => halfR p S)).sum) := by
  rw [apply_to_chunk,
    List.map_congr_left (fun p _ => half_eq_some p S h),
    show chunk.map (fun p => some (halfR p S)) =
      chunk.map (fun p => some ((fun q => halfR q S) p)) from rfl,
    osum_map_some]

lemma apply_to_chunk_nil_left (S : List (List ℝ)) : apply_to_chunk [] S = some 0 :=
  rfl

lemma apply_to_chunk_nil_right (chunk : List (List ℝ)) (h : chunk ≠ []) :
    apply_to_chunk chunk [] = none := by
  rw [apply_to_chunk]
  apply osum_eq_none_of_mem
  rcases chunk with _ | ⟨p, ps⟩
  · exact absurd rfl h
  · exact List.mem_map.mpr ⟨p, by simp, half_nil p⟩

lemma array_split_sizes (s : List (List ℝ)) (n : ℕ) (hn : 0 < n) :
    (splitSizes s.length n).sum = s.length :=
  splitSizes_sum s.length n hn

/-- The chunked one-direction reduction computes the code's cross term,
whatever positive chunk count is used, provided the other set is
non-empty. -/
lemma split_chunks_eq_some (n : ℕ) (hn : 0 < n) (S1 S2 : List (List ℝ))
    (h2 : S2 ≠ []) :
    split_set_and_apply_chunks n S1 S2 = some (crossCode S1 S2) := by
  rw [split_set_and_apply_chunks, array_split,
    List.map_congr_left
      (fun c _ => apply_to_chunk_eq_some c S2 h2),
    show (takeDrops (splitSizes S1.length n) S1).map
        (fun c => some ((c.map (fun p => halfR p S2)).sum)) =
      (takeDrops (splitSizes S1.length n) S1).map
        (fun c => some ((fun d => ((d.map (fun p => halfR p S2)).sum)) c)) from rfl,
    osum_map_some, crossCode,
    takeDrops_sum_map _ _ _ (splitSizes_sum S1.length n hn)]

/-- An empty chunked set contributes a partial sum of `0`. -/
lemma split_chunks_nil_left (n : ℕ) (S2 : List (List ℝ)) :
    split_set_and_apply_chunks n [] S2 = some 0 := by
  have h1 : (array_split ([] : List (List ℝ)) n).map (fun c => apply_to_chunk c S2) =
      (array_split ([] : List (List ℝ)) n).map (fun _ => some (0 : ℝ)) :=
    List.map_congr_left (fun c hc => by
      rw [mem_takeDrops_nil _ c hc]; rfl)
  rw [split_set_and_apply_chunks, h1]
  calc osum ((array_split ([] : List (List ℝ)) n).map (fun _ => some (0 : ℝ)))
      = some (((array_split ([] : List (List ℝ)) n).map (fun _ => (0 : ℝ))).sum) :=
        osum_map_some _ _
    _ = some 0 := by simp

/-- Chunking a non-empty set against an empty other set produces a NaN
partial mean, which propagates to the whole reduction. -/
lemma split_chunks_eq_none (n : ℕ) (hn : 0 < n) (S1 : List (List ℝ))
    (h1 : S1 ≠ []) :
    split_set_and_apply_chunks n S1 [] = none := by
  rw [split_set_and_apply_chunks]
  apply osum_eq_none_of_mem
  have hsum := splitSizes_sum S1.length n hn
  have hnotall : ¬ ∀ c ∈ array_split S1 n, c = [] := by
    intro hall
    exact h1 (takeDrops_all_nil _ _ hsum hall)
  push_neg at hnotall
  obtain ⟨c, hcmem, hcne⟩ := hnotall
  exact List.mem_map.mpr ⟨c, hcmem, apply_to_chunk_nil_right c hcne⟩

/-- The Euclidean norm of an elementwise difference is symmetric in its
two vectors. -/
lemma enorm_sub_comm (a b : List ℝ) :
    enorm (a.zipWith (fun x y => x - y) b) = enorm (b.zipWith (fun x y => x - y) a) := by
  unfold enorm
  congr 1
  induction a generalizing b with
  | nil => cases b <;> simp
  | cons x xs ih =>
    cases b with
    | nil => simp
    | cons y ys =>
      simp only [List.zipWith_cons_cons, List.map_cons, List.sum_cons]
      rw [ih ys]
      congr 1
      ring

/-- The code's cross term is the specification's cross term. -/
lemma crossCode_eq_cross (S1 S2 : List (List ℝ)) :
    crossCode S1 S2 = cross S1 S2 := by
  rw [crossCode, cross]
  apply congrArg List.sum
  apply List.map_congr_left
  intro p _
  rw [halfR]
  congr 1
  apply congrArg List.sum
  apply List.map_congr_left
  intro y _
  exact enorm_sub_comm y p

/-- Both point sets non-empty: `set2set` is the finite combined
cross-term statistic, for any positive chunk count. -/
lemma set2set_chunks_eq_some (n : ℕ) (hn : 0 < n) (s1 s2 : List (List ℝ))
    (h1 : s1 ≠ []) (h2 : s2 ≠ []) :
    set2set_chunks n s1 s2 =
      some ((crossCode s1 s2 + crossCode s2 s1) /
        ((s1.length : ℝ) + (s2.length : ℝ))) := by
  have hd1 : (0 : ℝ) < s1.length := by
    exact_mod_cast List.length_pos.mpr h1
  have hd2 : (0 : ℝ) ≤ (s2.length : ℝ) := Nat.cast_nonneg _
  have hden : (s1.length : ℝ) + (s2.length : ℝ) ≠ 0 := by positivity
  rw [set2set_chunks, split_chunks_eq_some n hn s1 s2 h2,
    split_chunks_eq_some n hn s2 s1 h1]
  show pdivR (crossCode s1 s2 + crossCode s2 s1) _ = _
  exact pdivR_eq_some _ _ hden

lemma set2set_chunks_none_iff (n : ℕ) (hn : 0 < n) (s1 s2 : List (List ℝ)) :
    set2set_chunks n s1 s2 = none ↔ s1 = [] ∨ s2 = [] := by
  constructor
  · intro h
    by_contra hc
    push_neg at hc
    rw [set2set_chunks_eq_some n hn s1 s2 hc.1 hc.2] at h
    exact Option.noConfusion h
  · rintro (rfl | rfl)
    · rcases eq_or_ne s2 [] with rfl | hne
      · rw [set2set_chunks, split_chunks_nil_left]
        show pdivR ((0 : ℝ) + 0) _ = none
        rw [pdivR_eq_none_iff]
        simp
      · rw [set2set_chunks, split_chunks_nil_left, split_chunks_eq_none n hn s2 hne]
        rfl
    · rcases eq_or_ne s1 [] with rfl | hne
      · rw [set2set_chunks, split_chunks_nil_left]
        show pdivR ((0 : ℝ) + 0) _ = none
        rw [pdivR_eq_none_iff]
        simp
      · rw [set2set_chunks, split_chunks_eq_none n hn s1 hne, split_chunks_nil_left]
        rfl

lemma set2set_none_iff (s1 s2 : List (List ℝ)) :
    set2set s1 s2 = none ↔ s1 = [] ∨ s2 = [] :=
  set2set_chunks_none_iff 16 (by norm_num) s1 s2

end

/-! ### Claim theorems about `distance()` -/

/-- C1: for non-empty normalized point sets, `distance()` returns exactly
`(cross(S1, S2) + cross(S2, S1)) / (n1 + n2)` with
`cross(X, Y) = Σ_{x in X} mean_{y in Y} ‖x − y‖₂` — the exact arithmetic
mean over the full other set, no sampling. -/
theorem distance_eq_cross_formula (k : KPIs) (h1 : k.rd ≠ []) (h2 : k.gd ≠ []) :
    distance k = some ((cross k.rd k.gd + cross k.gd k.rd) /
      ((k.rd.length : ℝ) + (k.gd.length : ℝ))) := by
  rw [distance, set2set, set2set_chunks_eq_some 16 (by norm_num) _ _ h1 h2,
    crossCode_eq_cross, crossCode_eq_cross]

theorem distance_eq_cross_formula_witness :
    (mkKPIs [[0], [10]] [[1]] [] [] []).rd ≠ [] ∧
    (mkKPIs [[0], [10]] [[1]] [] [] []).gd ≠ [] ∧
    distance (mkKPIs [[0], [10]] [[1]] [] [] []) =
      some ((cross (mkKPIs [[0], [10]] [[1]] [] [] []).rd
          (mkKPIs [[0], [10]] [[1]] [] [] []).gd +
        cross (mkKPIs [[0], [10]] [[1]] [] [] []).gd
          (mkKPIs [[0], [10]] [[1]] [] [] []).rd) /
        (((mkKPIs [[0], [10]] [[1]] [] [] []).rd.length : ℝ) +
          ((mkKPIs [[0], [10]] [[1]] [] [] []).gd.length : ℝ))) :=
  ⟨by simp, by simp,
    distance_eq_cross_formula (mkKPIs [[0], [10]] [[1]] [] [] [])
      (by simp) (by simp)⟩

/-- C6: the chunked reduction is partition-count-invariant — 16 chunks and
a single chunk give the same partial-sum total, and the same distance. -/
theorem chunking_invariance (s1 s2 : List (List ℝ)) (h1 : s1 ≠ []) (h2 : s2 ≠ []) :
    split_set_and_apply_chunks 16 s1 s2 = split_set_and_apply_chunks 1 s1 s2 ∧
    set2set_chunks 16 s1 s2 = set2set_chunks 1 s1 s2 := by
  constructor
  · rw [split_chunks_eq_some 16 (by norm_num) s1 s2 h2,
      split_chunks_eq_some 1 (by norm_num) s1 s2 h2]
  · rw [set2set_chunks_eq_some 16 (by norm_num) s1 s2 h1 h2,
      set2set_chunks_eq_some 1 (by norm_num) s1 s2 h1 h2]

theorem chunking_invariance_witness :
    ([[0], [10]] : List (List ℝ)) ≠ [] ∧ ([[3]] : List (List ℝ)) ≠ [] ∧
    (split_set_and_apply_chunks 16 [[0], [10]] [[3]] =
      split_set_and_apply_chunks 1 [[0], [10]] [[3]] ∧
     set2set_chunks 16 [[0], [10]] [[3]] = set2set_chunks 1 [[0], [10]] [[3]]) :=
  ⟨by simp, by simp, chunking_invariance [[0], [10]] [[3]] (by simp) (by simp)⟩

/-- C7: swapping the real and generated point sets leaves `distance()`
unchanged. -/
theorem distance_symmetric (A B : List (List ℝ)) (h1f h2f vols : List ℚ)
    (hA : A ≠ []) (hB : B ≠ []) :
    distance (mkKPIs A B h1f h2f vols) = distance (mkKPIs B A h1f h2f vols) := by
  rw [distance, distance, mkKPIs_rd, mkKPIs_gd, mkKPIs_rd, mkKPIs_gd,
    set2set, set2set,
    set2set_chunks_eq_some 16 (by norm_num) A B hA hB,
    set2set_chunks_eq_some 16 (by norm_num) B A hB hA,
    add_comm (crossCode A B), add_comm ((A.length : ℝ))]

theorem distance_symmetric_witness :
    ([[0], [10]] : List (List ℝ)) ≠ [] ∧ ([[3]] : List (List ℝ)) ≠ [] ∧
    distance (mkKPIs [[0], [10]] [[3]] [] [] []) =
      distance (mkKPIs [[3]] [[0], [10]] [] [] []) :=
  ⟨by simp, by simp, distance_symmetric [[0], [10]] [[3]] [] [] [] (by simp) (by simp)⟩

/-- C10: a chunked set with fewer than 16 points yields empty chunks; an
empty chunk's partial sum is `0`, and the 16-way chunked cross-sum equals
the unchunked one (the whole set as a single chunk). -/
theorem small_set_chunking (s1 s2 : List (List ℝ)) (h0 : s1 ≠ [])
    (hlt : s1.length < 16) (h2 : s2 ≠ []) :
    [] ∈ array_split s1 16 ∧
    apply_to_chunk ([] : List (List ℝ)) s2 = some 0 ∧
    split_set_and_apply s1 s2 = apply_to_chunk s1 s2 := by
  refine ⟨?_, rfl, ?_⟩
  · apply nil_mem_takeDrops
    have hl : s1.length % 16 = s1.length := Nat.mod_eq_of_lt hlt
    have hd : s1.length / 16 = 0 := Nat.div_eq_of_lt hlt
    rw [splitSizes, hl, hd]
    apply List.mem_append_right
    rw [List.mem_replicate]
    exact ⟨by omega, rfl⟩
  · rw [split_set_and_apply, split_chunks_eq_some 16 (by norm_num) s1 s2 h2,
      apply_to_chunk_eq_some s1 s2 h2]
    rfl

theorem small_set_chunking_witness :
    ([[0], [10]] : List (List ℝ)) ≠ [] ∧
    ([[0], [10]] : List (List ℝ)).length < 16 ∧
    ([[3]] : List (List ℝ)) ≠ [] ∧
    ([] ∈ array_split ([[0], [10]] : List (List ℝ)) 16 ∧
     apply_to_chunk ([] : List (List ℝ)) [[3]] = some 0 ∧
     split_set_and_apply [[0], [10]] [[3]] = apply_to_chunk [[0], [10]] [[3]]) :=
  ⟨by simp, by simp, by simp,
    small_set_chunking [[0], [10]] [[3]] (by simp) (by simp) (by simp)⟩

/-! ### Claim theorems about error signalling (C2) and purity (C9) -/

/-- C2 counterexample: at structurally-zero denominators the metrics do not
raise any error — they silently return the non-finite float (NaN), here the
`none` marker: `error()` on a zero-mass generated histogram, `quality()`'s
all-bins score on a zero-volume binning, `distance()` on an empty generated
point set. -/
theorem metrics_degenerate_silent_cx :
    error (mkKPIs [] [] [1] [0] []) = none ∧
    (quality (mkKPIs [] [] [1] [2] [0])).1 = none ∧
    distance (mkKPIs [[1]] [] [] [] []) = none := by
  refine ⟨?_, ?_, ?_⟩
  · norm_num [error, pdiv]
  · norm_num [quality, qualityPart, abi, maskSel, pdiv]
  · rw [distance, mkKPIs_rd, mkKPIs_gd]
    exact (set2set_none_iff _ _).mpr (Or.inr rfl)

/-- C2 amended: no metric raises; instead each returns the non-finite
result (`none`) exactly when its denominator is structurally zero —
`error()` iff `sum h2f = 0`, the inner `quality(index)` on a non-empty
partition iff the partition's total volume is zero, and `set2set` iff
either point set is empty. -/
theorem metrics_nan_iff_degenerate :
    (∀ k : KPIs, error k = none ↔ k.h2f.sum = 0) ∧
    (∀ (k : KPIs) (m : List Bool), m.any id = true →
      (qualityPart k m = none ↔ (maskSel m k.vols).sum = 0)) ∧
    (∀ s1 s2 : List (List ℝ), set2set s1 s2 = none ↔ s1 = [] ∨ s2 = []) := by
  refine ⟨?_, ?_, ?_⟩
  · intro k
    rw [error]
    exact pdiv_eq_none_iff _ _
  · intro k m hany
    rw [qualityPart, if_pos hany]
    exact pdiv_eq_none_iff _ _
  · exact set2set_none_iff

theorem metrics_nan_iff_degenerate_witness :
    error (mkKPIs [] [] [2] [0] []) = none ∧
    qualityPart (mkKPIs [] [] [3] [4] [0]) (abi (mkKPIs [] [] [3] [4] [0])) = none ∧
    set2set [] [[1]] = none :=
  ⟨(metrics_nan_iff_degenerate.1 _).mpr (by norm_num),
   (metrics_nan_iff_degenerate.2.1 _ _ (by norm_num [abi])).mpr
     (by norm_num [abi, maskSel]),
   (metrics_nan_iff_degenerate.2.2 _ _).mpr (Or.inl rfl)⟩

/-- The Python methods `error`, `quality`, `distance` embedded as
state-passing calls: each returns its result together with the receiving
engine; none of their bodies assigns to any engine attribute, so the
returned state is the received state. -/
def errorCall (k : KPIs) : Option ℚ × KPIs := (error k, k)

/-- Method `quality()` as a state-passing call. -/
def qualityCall (k : KPIs) : (Option ℚ × Option ℚ × Option ℚ) × KPIs := (quality k, k)

/-- Method `distance()` as a state-passing call. -/
noncomputable def distanceCall (k : KPIs) : Option ℝ × KPIs := (distance k, k)

/-- C9: all engine state is derived at construction (`diff = h2f − h1f` is
a constructor field), each metric call leaves the state unchanged, and
repeated calls — in any interleaving — return equal results. -/
theorem engine_state_immutable (rd gd : List (List ℝ)) (h1f h2f vols : List ℚ) :
    (mkKPIs rd gd h1f h2f vols).diff = List.zipWith (fun a b => a - b) h2f h1f ∧
    (∀ k : KPIs, (errorCall k).2 = k ∧ (qualityCall k).2 = k ∧ (distanceCall k).2 = k) ∧
    (∀ k : KPIs,
      (errorCall ((qualityCall ((distanceCall k).2)).2)).1 = (errorCall k).1 ∧
      (qualityCall ((errorCall k).2)).1 = (qualityCall k).1 ∧
      (distanceCall ((errorCall k).2)).1 = (distanceCall k).1) :=
  ⟨rfl, fun _ => ⟨rfl, rfl, rfl⟩, fun _ => ⟨rfl, rfl, rfl⟩⟩

end Ingen
